import Mathlib

/-!
Verification of the `ring-queue` crate (`src/src/lib.rs`): a bounded,
fixed-capacity FIFO queue backed by a circular buffer of `MaybeUninit<T>`
slots, wrapped in a mutex with two condition variables.

Shallow embedding conventions:
* `Inner<T, LEN>` becomes `Inner α LEN` with `values : List (Option α)`;
  a slot holding `none` models an uninitialized `MaybeUninit`, `some v`
  models an initialized one.  `assume_init` is modelled by the `Option`
  (reading a vacant slot yields `none`, which the safety theorem rules out
  under the invariant).
* `usize` arithmetic becomes `Nat` arithmetic; Rust's `-` on `usize`
  panics on underflow, so the no-underflow obligations are stated as
  explicit `≤` facts.
* The blocking protocol (`Condvar::wait_while`) is modelled by feeding the
  loop the list of guarded states observed at entry and after each wake;
  the loop exits at the first state failing its predicate, and `none`
  models blocking forever.  A poisoned lock (`lock().unwrap()` panicking)
  is modelled by `Except`.
-/

namespace RingQueueModel

/-- Embedding of `struct Inner<T, const LEN: usize>` from `src/src/lib.rs`:
a fixed array of `LEN` `MaybeUninit<T>` slots (`none` = uninitialized),
the index `start` of the next value to return, and the count `size` of
occupied slots. -/
structure Inner (α : Type) (LEN : Nat) where
  values : List (Option α)
  start : Nat
  size : Nat
  deriving DecidableEq, Repr

/-- Embedding of `impl Default for Inner`: all slots uninitialized,
`start = 0`, `size = 0`. -/
def Inner.new (α : Type) (LEN : Nat) : Inner α LEN :=
  { values := List.replicate LEN none, start := 0, size := 0 }

/-- Embedding of `Inner::pop`: decrement `size`, remember `old_start`,
advance `start` by one modulo `LEN`, replace slot `old_start` with an
uninitialized value and return its previous contents (the `assume_init`
is modelled by the returned `Option`). -/
def Inner.pop (q : Inner α LEN) : Option α × Inner α LEN :=
  let size' := q.size - 1
  let old_start := q.start
  let start' := (q.start + 1) % LEN
  let ret := q.values.getD old_start none
  (ret, { values := q.values.set old_start none, start := start', size := size' })

/-- The slot index `end` computed by `Inner::push`:
`if size >= LEN - start { size - (LEN - start) } else { start + size }`. -/
def Inner.pushIdx (q : Inner α LEN) : Nat :=
  if LEN - q.start ≤ q.size then q.size - (LEN - q.start) else q.start + q.size

/-- Embedding of `Inner::push`: write the value into slot `pushIdx` and
increment `size`. -/
def Inner.push (q : Inner α LEN) (v : α) : Inner α LEN :=
  { values := q.values.set q.pushIdx (some v), start := q.start, size := q.size + 1 }

/-- The list of slot indices iterated by `Inner::clone`:
`(start..LEN).chain(0..(size - (LEN - start)))` when `size > LEN - start`,
otherwise `start..(start + size)`. -/
def Inner.cloneIdxs (q : Inner α LEN) : List Nat :=
  if LEN - q.start < q.size then
    List.range' q.start (LEN - q.start) ++ List.range (q.size - (LEN - q.start))
  else
    List.range' q.start q.size

/-- Embedding of `impl Clone for Inner`: start from a fresh array of
uninitialized slots and copy (`clone_initialized_uninit`) exactly the
slots at `cloneIdxs`; `start` and `size` are copied verbatim.  Cloning an
element is the identity on the modelled value. -/
def Inner.clone (q : Inner α LEN) : Inner α LEN :=
  { values := q.cloneIdxs.foldl (fun vs i => vs.set i (q.values.getD i none))
      (List.replicate LEN none),
    start := q.start, size := q.size }

/-- The list of elements whose destructors run when an `Inner` (and hence a
`RingQueue`) is dropped.  The source defines no `Drop` impl for `Inner` or
`RingQueue`, and Rust's drop glue for `[MaybeUninit<T>; LEN]` runs no
element destructor, so destruction releases no element at all. -/
def Inner.teardownReleased (_q : Inner α LEN) : List α := []

/-- The occupied window in order: the contents of the slots at
`(start + i) mod LEN` for `i ∈ [0, size)`. -/
def Inner.window (q : Inner α LEN) : List (Option α) :=
  (List.range q.size).map fun i => q.values.getD ((q.start + i) % LEN) none

/-- Index `j` lies in the occupied window described by `start`/`size`:
`j = (start + i) mod LEN` for some `i < size`. -/
def occupiedIdx (LEN start size j : Nat) : Prop :=
  ∃ i, i < size ∧ j = (start + i) % LEN

instance (LEN start size j : Nat) : Decidable (occupiedIdx LEN start size j) := by
  unfold occupiedIdx
  infer_instance

/-- The occupied-window invariant on an `Inner` state, from the `INVARIANT`
comment on `Inner.values`: the backing array has length `LEN`, `start` is
in bounds (except that for `LEN = 0` the only reachable `start` is `0`),
`size ≤ LEN`, and a slot is initialized exactly when its index lies in the
occupied window. -/
def Inv (q : Inner α LEN) : Prop :=
  q.values.length = LEN ∧
  (q.start < LEN ∨ (LEN = 0 ∧ q.start = 0)) ∧
  q.size ≤ LEN ∧
  ∀ j, j < LEN → ((q.values.getD j none).isSome ↔ occupiedIdx LEN q.start q.size j)

instance (q : Inner α LEN) [DecidableEq α] : Decidable (Inv q) := by
  unfold Inv
  infer_instance

/-- Iterated `Inner::push`: push the values of `vs` in order. -/
def Inner.pushAll (q : Inner α LEN) (vs : List α) : Inner α LEN :=
  vs.foldl Inner.push q

/-- Iterated `Inner::pop`: pop `n` times, collecting the results in order. -/
def Inner.popN : Nat → Inner α LEN → List (Option α) × Inner α LEN
  | 0, q => ([], q)
  | n + 1, q =>
    let p := q.pop
    let rest := Inner.popN n p.2
    (p.1 :: rest.1, rest.2)

/-- States reachable from the initial empty state by `push` and `pop`
operations, each performed under its documented precondition. -/
inductive Reach {α : Type} {LEN : Nat} : Inner α LEN → Prop where
  | init : Reach (Inner.new α LEN)
  | push {q : Inner α LEN} (v : α) : Reach q → q.size < LEN → Reach (q.push v)
  | pop {q : Inner α LEN} : Reach q → 0 < q.size → Reach q.pop.2

/-! ### Helper lemmas -/

theorem getD_set_self {α : Type} (l : List (Option α)) (i : Nat) (h : i < l.length)
    (a : Option α) : (l.set i a).getD i none = a := by
  simp [List.getD_eq_getElem?_getD, List.getElem?_set_self, h]

theorem getD_set_ne {α : Type} (l : List (Option α)) {i j : Nat} (h : i ≠ j)
    (a : Option α) : (l.set i a).getD j none = l.getD j none := by
  simp [List.getD_eq_getElem?_getD, List.getElem?_set_ne h]

/-- The map `i ↦ (s + i) % LEN` is injective on `[0, LEN)`. -/
theorem window_idx_inj {LEN s i j : Nat} (hi : i < LEN) (hj : j < LEN)
    (h : (s + i) % LEN = (s + j) % LEN) : i = j := by
  have h' : i ≡ j [MOD LEN] := Nat.ModEq.add_left_cancel' s h
  have h'' : i % LEN = j % LEN := h'
  rwa [Nat.mod_eq_of_lt hi, Nat.mod_eq_of_lt hj] at h''

theorem window_idx_lt {LEN s i : Nat} (h : 0 < LEN) : (s + i) % LEN < LEN :=
  Nat.mod_lt _ h

/-- Under the invariant's bounds, `Inner::push`'s computed slot index is
`(start + size) % LEN`. -/
theorem Inner.pushIdx_eq {α : Type} {LEN : Nat} (q : Inner α LEN)
    (hs : q.start < LEN) (hz : q.size < LEN) :
    q.pushIdx = (q.start + q.size) % LEN := by
  unfold Inner.pushIdx
  by_cases h : LEN - q.start ≤ q.size
  · have h1 : LEN ≤ q.start + q.size := by omega
    have h2 : q.start + q.size - LEN < LEN := by omega
    rw [if_pos h, Nat.mod_eq_sub_mod h1, Nat.mod_eq_of_lt h2]
    omega
  · have h1 : q.start + q.size < LEN := by omega
    rw [if_neg h, Nat.mod_eq_of_lt h1]

/-- `Inner::push` preserves the occupied-window invariant when called under
its precondition `size < LEN`. -/
theorem Inv.push {α : Type} {LEN : Nat} {q : Inner α LEN} (h : Inv q)
    (hz : q.size < LEN) (v : α) : Inv (q.push v) := by
  obtain ⟨hlen, hstart, hsize, hocc⟩ := h
  have hLEN : 0 < LEN := by omega
  have hs : q.start < LEN := by omega
  have hidx : q.pushIdx = (q.start + q.size) % LEN := q.pushIdx_eq hs hz
  have hidxlt : q.pushIdx < LEN := by rw [hidx]; exact window_idx_lt hLEN
  refine ⟨by simp [Inner.push, hlen], by simp [Inner.push]; omega,
    by simp [Inner.push]; omega, ?_⟩
  intro j hj
  simp only [Inner.push]
  by_cases hje : j = q.pushIdx
  · subst hje
    rw [getD_set_self _ _ (by omega)]
    simp only [Option.isSome_some, true_iff]
    exact ⟨q.size, by omega, hidx⟩
  · rw [getD_set_ne _ (fun h => hje h.symm)]
    rw [hocc j hj]
    constructor
    · rintro ⟨i, hi, rfl⟩
      exact ⟨i, by omega, rfl⟩
    · rintro ⟨i, hi, rfl⟩
      rcases Nat.lt_or_ge i q.size with hlt | hge
      · exact ⟨i, hlt, rfl⟩
      · exfalso
        have : i = q.size := by omega
        subst this
        exact hje hidx.symm

/-- `Inner::pop` preserves the occupied-window invariant when called under
its precondition `size > 0`. -/
theorem Inv.pop {α : Type} {LEN : Nat} {q : Inner α LEN} (h : Inv q)
    (hz : 0 < q.size) : Inv q.pop.2 := by
  obtain ⟨hlen, hstart, hsize, hocc⟩ := h
  have hLEN : 0 < LEN := by omega
  have hs : q.start < LEN := by omega
  refine ⟨by simp [Inner.pop, hlen], Or.inl (by simp [Inner.pop]; exact Nat.mod_lt _ hLEN),
    by simp [Inner.pop]; omega, ?_⟩
  intro j hj
  simp only [Inner.pop]
  have hwin : ∀ i : Nat, ((q.start + 1) % LEN + i) % LEN = (q.start + (i + 1)) % LEN := by
    intro i
    rw [Nat.mod_add_mod]
    ring_nf
  by_cases hje : j = q.start
  · subst hje
    rw [getD_set_self _ _ (by omega)]
    simp only [Option.isSome_none, Bool.false_eq_true, false_iff]
    rintro ⟨i, hi, heq⟩
    rw [hwin i] at heq
    have heq' : (q.start + 0) % LEN = (q.start + (i + 1)) % LEN := by
      rw [Nat.add_zero, Nat.mod_eq_of_lt hs]
      exact heq
    have := window_idx_inj (by omega) (by omega) heq'
    omega
  · rw [getD_set_ne _ (fun h => hje h.symm)]
    rw [hocc j hj]
    constructor
    · rintro ⟨i, hi, rfl⟩
      have hi0 : i ≠ 0 := by
        rintro rfl
        exact hje (by rw [Nat.add_zero, Nat.mod_eq_of_lt hs])
      exact ⟨i - 1, by omega, by rw [hwin]; congr 1; omega⟩
    · rintro ⟨i, hi, rfl⟩
      exact ⟨i + 1, by omega, hwin i⟩

/-- The initial state satisfies the occupied-window invariant. -/
theorem Inv.new (α : Type) (LEN : Nat) : Inv (Inner.new α LEN) := by
  refine ⟨by simp [Inner.new], by simp [Inner.new]; omega, by simp [Inner.new], ?_⟩
  intro j hj
  simp only [Inner.new, List.getD_eq_getElem?_getD, List.getElem?_replicate]
  rw [if_pos hj]
  simp only [Option.getD_some, Option.isSome_none, Bool.false_eq_true, false_iff]
  rintro ⟨i, hi, _⟩
  omega

/-! ### Window lemmas -/

theorem Inner.window_length {α : Type} {LEN : Nat} (q : Inner α LEN) :
    q.window.length = q.size := by
  simp [Inner.window]

/-- With `size > 0` and `start` in bounds, the window starts with the slot
at `start`. -/
theorem Inner.window_cons {α : Type} {LEN : Nat} {q : Inner α LEN}
    (hs : q.start < LEN) (hz : 0 < q.size) :
    q.window = q.values.getD q.start none :: q.window.tail := by
  obtain ⟨n, hn⟩ : ∃ n, q.size = n + 1 := ⟨q.size - 1, by omega⟩
  unfold Inner.window
  rw [hn, List.range_succ_eq_map, List.map_cons, List.tail_cons, Nat.add_zero,
    Nat.mod_eq_of_lt hs]

/-- `Inner::push` under its precondition appends the new value to the
occupied window. -/
theorem Inner.push_window {α : Type} {LEN : Nat} {q : Inner α LEN} (h : Inv q)
    (hz : q.size < LEN) (v : α) :
    (q.push v).window = q.window ++ [some v] := by
  obtain ⟨hlen, hstart, hsize, hocc⟩ := h
  have hs : q.start < LEN := by omega
  have hidx := q.pushIdx_eq hs hz
  unfold Inner.window
  simp only [Inner.push]
  rw [List.range_succ, List.map_append]
  congr 1
  · apply List.map_congr_left
    intro i hi
    rw [List.mem_range] at hi
    apply getD_set_ne
    rw [hidx]
    intro hcontra
    exact absurd (window_idx_inj (by omega) (by omega) hcontra) (by omega)
  · simp only [List.map_cons, List.map_nil]
    have hidxlt : q.pushIdx < LEN := by
      rw [hidx]
      exact window_idx_lt (by omega)
    rw [← hidx, getD_set_self _ _ (by omega)]

/-- `Inner::pop` under its precondition removes the head of the occupied
window. -/
theorem Inner.pop_window {α : Type} {LEN : Nat} {q : Inner α LEN} (h : Inv q)
    (hz : 0 < q.size) :
    q.pop.2.window = q.window.tail := by
  obtain ⟨hlen, hstart, hsize, hocc⟩ := h
  have hLEN : 0 < LEN := by omega
  have hs : q.start < LEN := by omega
  obtain ⟨n, hn⟩ : ∃ n, q.size = n + 1 := ⟨q.size - 1, by omega⟩
  unfold Inner.window
  simp only [Inner.pop, hn, Nat.add_sub_cancel]
  rw [List.range_succ_eq_map, List.map_cons, List.tail_cons, List.map_map]
  apply List.map_congr_left
  intro i hi
  rw [List.mem_range] at hi
  have hwin : ((q.start + 1) % LEN + i) % LEN = (q.start + (i + 1)) % LEN := by
    rw [Nat.mod_add_mod]
    ring_nf
  rw [hwin]
  simp only [Function.comp_apply, Nat.succ_eq_add_one]
  apply getD_set_ne
  intro hcontra
  have heq' : (q.start + 0) % LEN = (q.start + (i + 1)) % LEN := by
    rw [Nat.add_zero, Nat.mod_eq_of_lt hs]
    exact hcontra
  have := window_idx_inj (by omega) (by omega) heq'
  omega

/-- Iterated push under the invariant appends the pushed values to the
window. -/
theorem Inner.pushAll_spec {α : Type} {LEN : Nat} :
    ∀ (vs : List α) (q : Inner α LEN), Inv q → q.size + vs.length ≤ LEN →
      Inv (q.pushAll vs) ∧ (q.pushAll vs).size = q.size + vs.length ∧
        (q.pushAll vs).window = q.window ++ vs.map some := by
  intro vs
  induction vs with
  | nil => intro q h _; simpa [Inner.pushAll] using h
  | cons v vs ih =>
    intro q h hle
    have hz : q.size < LEN := by simp at hle; omega
    have h1 : Inv (q.push v) := h.push hz v
    have hsz : (q.push v).size = q.size + 1 := rfl
    obtain ⟨h2, h3, h4⟩ := ih (q.push v) h1 (by simp at hle ⊢; omega)
    have hstep : (q.pushAll (v :: vs)) = ((q.push v).pushAll vs) := rfl
    refine ⟨hstep ▸ h2, ?_, ?_⟩
    · rw [hstep, h3, hsz]
      simp
      omega
    · rw [hstep, h4, Inner.push_window h hz v]
      simp

/-- Iterated pop under the invariant returns a prefix of the window. -/
theorem Inner.popN_spec {α : Type} {LEN : Nat} :
    ∀ (n : Nat) (q : Inner α LEN), Inv q → n ≤ q.size →
      (Inner.popN n q).1 = q.window.take n := by
  intro n
  induction n with
  | zero => intro q _ _; simp [Inner.popN]
  | succ n ih =>
    intro q h hle
    have hz : 0 < q.size := by omega
    have hs : q.start < LEN := by
      obtain ⟨_, hstart, hsize, _⟩ := h
      omega
    have hrec := ih q.pop.2 (h.pop hz) (by simp [Inner.pop]; omega)
    have hw := Inner.pop_window h hz
    simp only [Inner.popN]
    rw [hrec, hw, Inner.window_cons hs hz]
    simp [Inner.pop]

/-! ### Clone lemmas -/

/-- Writing `f i` at each index of `is` into `init` leaves, at each index
`j` in bounds, the value `f j` when `j ∈ is` and the initial value
otherwise. -/
theorem foldl_set_getD {α : Type} (f : Nat → Option α) :
    ∀ (is : List Nat) (init : List (Option α)) (j : Nat), j < init.length →
      (is.foldl (fun vs i => vs.set i (f i)) init).getD j none =
        if j ∈ is then f j else init.getD j none := by
  intro is
  induction is with
  | nil => intro init j _; simp
  | cons i is ih =>
    intro init j hj
    simp only [List.foldl_cons]
    rw [ih (init.set i (f i)) j (by simpa using hj)]
    by_cases hji : j ∈ is
    · simp [hji]
    · by_cases hij : i = j
      · subst hij
        rw [if_neg hji, if_pos (List.mem_cons_self i is), getD_set_self init i hj]
      · have hmem : j ∉ i :: is := by
          simp only [List.mem_cons]
          rintro (rfl | hc)
          · exact hij rfl
          · exact hji hc
        rw [if_neg hji, getD_set_ne init hij, if_neg hmem]

theorem foldl_set_length {α : Type} (f : Nat → Option α) :
    ∀ (is : List Nat) (init : List (Option α)),
      (is.foldl (fun vs i => vs.set i (f i)) init).length = init.length := by
  intro is
  induction is with
  | nil => intro init; rfl
  | cons i is ih =>
    intro init
    simp only [List.foldl_cons]
    rw [ih (init.set i (f i)), List.length_set]

/-- Under the invariant, the indices iterated by `Inner::clone` are exactly
the occupied window. -/
theorem Inner.mem_cloneIdxs {α : Type} {LEN : Nat} {q : Inner α LEN} (h : Inv q)
    (j : Nat) : j ∈ q.cloneIdxs ↔ occupiedIdx LEN q.start q.size j := by
  obtain ⟨hlen, hstart, hsize, _⟩ := h
  unfold Inner.cloneIdxs occupiedIdx
  by_cases hw : LEN - q.start < q.size
  · have hLEN : 0 < LEN := by omega
    have hs : q.start < LEN := by omega
    rw [if_pos hw]
    simp only [List.mem_append, List.mem_range'_1, List.mem_range]
    constructor
    · rintro (⟨haj, hbj⟩ | hj)
      · refine ⟨j - q.start, by omega, ?_⟩
        have h1 : q.start + (j - q.start) = j := by omega
        rw [h1, Nat.mod_eq_of_lt (by omega)]
      · refine ⟨j + (LEN - q.start), by omega, ?_⟩
        have h1 : q.start + (j + (LEN - q.start)) = j + LEN := by omega
        rw [h1, Nat.add_mod_right, Nat.mod_eq_of_lt (by omega)]
    · rintro ⟨i, hi, rfl⟩
      by_cases hil : q.start + i < LEN
      · left
        rw [Nat.mod_eq_of_lt hil]
        omega
      · right
        have h1 : (q.start + i) % LEN = q.start + i - LEN := by
          rw [Nat.mod_eq_sub_mod (by omega), Nat.mod_eq_of_lt (by omega)]
        rw [h1]
        omega
  · rw [if_neg hw]
    simp only [List.mem_range'_1]
    constructor
    · rintro ⟨haj, hbj⟩
      refine ⟨j - q.start, by omega, ?_⟩
      have h1 : q.start + (j - q.start) = j := by omega
      rw [h1, Nat.mod_eq_of_lt (by omega)]
    · rintro ⟨i, hi, rfl⟩
      have hil : q.start + i < LEN := by omega
      rw [Nat.mod_eq_of_lt hil]
      omega

/-- Under the invariant, a cloned slot holds the original's value exactly
at occupied indices and is vacant everywhere else. -/
theorem Inner.clone_getD {α : Type} {LEN : Nat} {q : Inner α LEN} (h : Inv q)
    (j : Nat) (hj : j < LEN) :
    q.clone.values.getD j none =
      if occupiedIdx LEN q.start q.size j then q.values.getD j none else none := by
  have hmem := Inner.mem_cloneIdxs h j
  show ((q.cloneIdxs.foldl (fun vs i => vs.set i (q.values.getD i none))
      (List.replicate LEN none)).getD j none) = _
  rw [foldl_set_getD _ _ _ j (by simpa using hj)]
  by_cases ho : occupiedIdx LEN q.start q.size j
  · rw [if_pos (hmem.mpr ho), if_pos ho]
  · rw [if_neg (fun hm => ho (hmem.mp hm)), if_neg ho]
    simp [List.getD_eq_getElem?_getD, List.getElem?_replicate, hj]

/-! ### Queue-level model -/

/-- Embedding of `struct RingQueue<T, LEN>`: the mutex and the two condition
variables carry no data of their own, so the model keeps the protected
storage. -/
structure RingQueue (α : Type) (LEN : Nat) where
  inner : Inner α LEN
  deriving DecidableEq, Repr

/-- Embedding of `impl Clone for RingQueue`: lock the storage, clone it
(`Inner::clone`), and wrap the copy in a brand-new mutex and brand-new
condition variables. -/
def RingQueue.clone (q : RingQueue α LEN) : RingQueue α LEN :=
  { inner := q.inner.clone }

/-- The one fault class of the queue API: `Mutex::lock` returning a
poison error, which `.unwrap()` turns into a panic. -/
inductive QueueFault where
  | lockPoisoned
  deriving DecidableEq, Repr

/-- Embedding of `Condvar::wait_while`: the list holds the guarded state
observed at entry and after each wake; the loop re-checks the predicate at
every element and exits at the first state where it is false.  `none`
models blocking forever (the condition never became false). -/
def waitWhile {σ : Type} (p : σ → Bool) : List σ → Option σ
  | [] => none
  | s :: rest => if p s then waitWhile p rest else some s

/-- Embedding of `RingQueue::pop`: `lock().unwrap()` (a poisoned lock
panics, modelled by `Except.error`), then `wait_while(.., |inner|
inner.size == 0)`, then `Inner::pop` on the state the wait returned.
The outer `Option` is the blocking model of `waitWhile`. -/
def RingQueue.popModel {α : Type} {LEN : Nat}
    (lock : Except QueueFault (List (Inner α LEN))) :
    Option (Except QueueFault (Option α × Inner α LEN)) :=
  match lock with
  | .error e => some (.error e)
  | .ok wakes => (waitWhile (fun q => q.size == 0) wakes).map fun q => .ok q.pop

/-- Embedding of `RingQueue::push`: `lock().unwrap()`, then
`wait_while(.., |inner| inner.size == LEN)`, then `Inner::push`. -/
def RingQueue.pushModel {α : Type} {LEN : Nat}
    (lock : Except QueueFault (List (Inner α LEN))) (v : α) :
    Option (Except QueueFault (Inner α LEN)) :=
  match lock with
  | .error e => some (.error e)
  | .ok wakes => (waitWhile (fun q => q.size == LEN) wakes).map fun q => .ok (q.push v)

/-- `wait_while` only returns a state failing its predicate, and that state
is one of the observed ones. -/
theorem waitWhile_exit {σ : Type} (p : σ → Bool) :
    ∀ (l : List σ) (s : σ), waitWhile p l = some s → p s = false ∧ s ∈ l := by
  intro l
  induction l with
  | nil => intro s h; simp [waitWhile] at h
  | cons a l ih =>
    intro s h
    simp only [waitWhile] at h
    by_cases hp : p a
    · rw [if_pos hp] at h
      obtain ⟨h1, h2⟩ := ih s h
      exact ⟨h1, List.mem_cons_of_mem _ h2⟩
    · rw [if_neg hp] at h
      injection h with h
      subst h
      exact ⟨by simpa using hp, List.mem_cons_self _ _⟩

/-- A small concrete state used by witnesses: capacity 2, one occupied slot
at index 1 (`start = 1`, `size = 1`), so that the next push wraps. -/
def wState : Inner Nat 2 :=
  { values := [none, some 10], start := 1, size := 1 }

/-! ### Claim theorems -/

/-- C1, counterexample to the claim as stated: the initial empty state of a
capacity-0 queue is reachable (by the empty sequence of operations), yet
its `start = 0` does not satisfy `start < CAP` when `CAP = 0`. -/
theorem C1_counterexample :
    Reach (Inner.new Nat 0) ∧ ¬(Inner.new Nat 0).start < 0 :=
  ⟨Reach.init, by decide⟩

/-- C1 (amended): every Storage state reachable from the initial empty
state (`start = 0`, `size = 0`) by pushes and pops under their
preconditions satisfies the occupied-window invariant: the occupied slots
are exactly those at `(start + i) % LEN` for `i ∈ [0, size)`, every other
slot is vacant, `size ≤ LEN`, and `start < LEN` — except that when
`LEN = 0` the (only reachable) `start` is `0`. -/
theorem C1_reach_invariant {α : Type} {LEN : Nat} (q : Inner α LEN)
    (h : Reach q) : Inv q := by
  induction h with
  | init => exact Inv.new α LEN
  | push v _ hlt ih => exact ih.push hlt v
  | pop _ hpos ih => exact ih.pop hpos

/-- Witness for C1: a concrete reachable state satisfies the invariant. -/
theorem C1_reach_invariant_witness : Inv ((Inner.new Nat 2).push 7) :=
  C1_reach_invariant _ (Reach.push 7 Reach.init (by decide))

/-- C2: for every state satisfying the occupied-window invariant with
`size < LEN`, `push(value)` writes `value` into the slot at index
`(start + size) % LEN`, increments `size` by one (and leaves `start`
unchanged). -/
theorem C2_push_spec {α : Type} {LEN : Nat} (q : Inner α LEN) (v : α)
    (h : Inv q) (hz : q.size < LEN) :
    (q.push v).values = q.values.set ((q.start + q.size) % LEN) (some v) ∧
    (q.push v).size = q.size + 1 ∧ (q.push v).start = q.start := by
  have hs : q.start < LEN := by
    obtain ⟨_, hstart, _, _⟩ := h
    omega
  exact ⟨by simp only [Inner.push, q.pushIdx_eq hs hz], rfl, rfl⟩

/-- Witness for C2 at a wrapping state: `start = 1`, `size = 1`,
capacity 2, so the write lands at index 0. -/
theorem C2_push_spec_witness :
    Inv wState ∧ wState.size < 2 ∧
      ((wState.push 20).values =
          wState.values.set ((wState.start + wState.size) % 2) (some 20) ∧
        (wState.push 20).size = wState.size + 1 ∧
        (wState.push 20).start = wState.start) :=
  ⟨by decide, by decide, C2_push_spec wState 20 (by decide) (by decide)⟩

/-- C3: for every state satisfying the occupied-window invariant with
`size > 0`, `pop()` returns the element stored at slot `start`, marks that
slot vacant, sets `start` to `(start + 1) % LEN`, and decrements `size`
by one. -/
theorem C3_pop_spec {α : Type} {LEN : Nat} (q : Inner α LEN)
    (h : Inv q) (hz : 0 < q.size) :
    (∃ v, q.values.getD q.start none = some v ∧ q.pop.1 = some v) ∧
    q.pop.2.values.getD q.start none = none ∧
    q.pop.2.start = (q.start + 1) % LEN ∧
    q.pop.2.size = q.size - 1 := by
  obtain ⟨hlen, hstart, hsize, hocc⟩ := h
  have hs : q.start < LEN := by omega
  have hsome : (q.values.getD q.start none).isSome := by
    rw [hocc q.start hs]
    exact ⟨0, hz, by rw [Nat.add_zero, Nat.mod_eq_of_lt hs]⟩
  obtain ⟨v, hv⟩ := Option.isSome_iff_exists.mp hsome
  refine ⟨⟨v, hv, hv⟩, ?_, rfl, rfl⟩
  show (q.values.set q.start none).getD q.start none = none
  rw [getD_set_self _ _ (by omega)]

/-- Witness for C3 at a concrete occupied state. -/
theorem C3_pop_spec_witness :
    Inv wState ∧ 0 < wState.size ∧
      ((∃ v, wState.values.getD wState.start none = some v ∧
          wState.pop.1 = some v) ∧
        wState.pop.2.values.getD wState.start none = none ∧
        wState.pop.2.start = (wState.start + 1) % 2 ∧
        wState.pop.2.size = wState.size - 1) :=
  ⟨by decide, by decide, C3_pop_spec wState (by decide) (by decide)⟩

/-- C5: value round trip — from any empty state satisfying the invariant
(in particular a fresh queue), `push(v)` immediately followed by `pop()`
yields exactly `v`. -/
theorem C5_round_trip {α : Type} {LEN : Nat} (q : Inner α LEN) (v : α)
    (h : Inv q) (he : q.size = 0) (hz : 0 < LEN) :
    ((q.push v).pop).1 = some v := by
  obtain ⟨hlen, hstart, hsize, hocc⟩ := h
  have hs : q.start < LEN := by omega
  have hidx : q.pushIdx = q.start := by
    rw [q.pushIdx_eq hs (by omega), he, Nat.add_zero, Nat.mod_eq_of_lt hs]
  show (q.values.set q.pushIdx (some v)).getD q.start none = some v
  rw [hidx, getD_set_self _ _ (by omega)]

/-- Witness for C5: single-slot round trip, capacity 1. -/
theorem C5_round_trip_witness :
    Inv (Inner.new Nat 1) ∧ (Inner.new Nat 1).size = 0 ∧ 0 < 1 ∧
      (((Inner.new Nat 1).push 42).pop).1 = some 42 :=
  ⟨by decide, by decide, by decide,
    C5_round_trip (Inner.new Nat 1) 42 (by decide) (by decide) (by decide)⟩

/-- C6: FIFO order — pushing the values of `vs` (with `vs.length ≤ LEN`) in
order into the initially empty Storage and then popping `vs.length` times
returns exactly those values in push order. -/
theorem C6_fifo {α : Type} {LEN : Nat} (vs : List α) (h : vs.length ≤ LEN) :
    (Inner.popN vs.length ((Inner.new α LEN).pushAll vs)).1 = vs.map some := by
  obtain ⟨h1, h2, h3⟩ :=
    Inner.pushAll_spec vs (Inner.new α LEN) (Inv.new α LEN) (by simp [Inner.new]; omega)
  have hwin0 : (Inner.new α LEN).window = [] := by
    simp [Inner.window, Inner.new]
  rw [Inner.popN_spec vs.length _ h1 (by rw [h2]; simp [Inner.new])]
  rw [h3, hwin0]
  simp

/-- Witness for C6: three values through a capacity-3 queue. -/
theorem C6_fifo_witness :
    ([4, 5, 6] : List Nat).length ≤ 3 ∧
      (Inner.popN ([4, 5, 6] : List Nat).length
          ((Inner.new Nat 3).pushAll [4, 5, 6])).1 = [4, 5, 6].map some :=
  ⟨by decide, C6_fifo [4, 5, 6] (by decide)⟩

/-- A full wrapping state used by witnesses: capacity 2, both slots
occupied, window `[1, 0]`. -/
def wFull : Inner Nat 2 :=
  { values := [some 20, some 10], start := 1, size := 2 }

/-- C4 (the code contradicts the claim): the state reached by pushing `5`
into a fresh capacity-1 queue is reachable and holds one live occupied
element, yet teardown releases nothing — the source has no `Drop` impl and
`[MaybeUninit<T>; LEN]` drop glue runs no element destructor, so the live
element is leaked instead of released. -/
theorem C4_teardown_leaks :
    Reach ((Inner.new Nat 1).push 5) ∧
    ((Inner.new Nat 1).push 5).size = 1 ∧
    ((Inner.new Nat 1).push 5).window = [some 5] ∧
    ((Inner.new Nat 1).push 5).teardownReleased = [] :=
  ⟨Reach.push 5 Reach.init (by decide), by decide, by decide, rfl⟩

/-- C7: for every state satisfying the occupied-window invariant, `clone()`
produces a Storage with identical `start` and `size`, a backing array of
the same capacity, copies of exactly the occupied slots (every vacant slot
of the copy is vacant), and `RingQueue::clone` wraps exactly this copy
(in the model the fresh mutex and condvars carry no data, so the two
queues share no state by construction). -/
theorem C7_clone_spec {α : Type} {LEN : Nat} (q : Inner α LEN) (h : Inv q) :
    q.clone.start = q.start ∧ q.clone.size = q.size ∧
    q.clone.values.length = LEN ∧
    (∀ j, j < LEN →
      q.clone.values.getD j none =
        if occupiedIdx LEN q.start q.size j then q.values.getD j none else none) ∧
    (RingQueue.clone { inner := q }).inner = q.clone := by
  refine ⟨rfl, rfl, ?_, fun j hj => Inner.clone_getD h j hj, rfl⟩
  show (q.cloneIdxs.foldl (fun vs i => vs.set i (q.values.getD i none))
      (List.replicate LEN none)).length = LEN
  rw [foldl_set_length _ q.cloneIdxs, List.length_replicate]

/-- Witness for C7 at a wrapping full state (clone copies both slots,
iterating `start..LEN` then `0..`). -/
theorem C7_clone_spec_witness :
    Inv wFull ∧
      (wFull.clone.start = wFull.start ∧ wFull.clone.size = wFull.size ∧
        wFull.clone.values.length = 2 ∧
        (∀ j, j < 2 →
          wFull.clone.values.getD j none =
            if occupiedIdx 2 wFull.start wFull.size j then wFull.values.getD j none
            else none) ∧
        (RingQueue.clone { inner := wFull }).inner = wFull.clone) :=
  ⟨by decide, C7_clone_spec wFull (by decide)⟩

/-- C8: safety of the partial-initialization code under the invariant.
For `pop` (precondition `size > 0`): `size - 1` cannot underflow, the read
index `start` is in bounds, and the slot passed to `assume_init` is
occupied.  For `push` (precondition `size < LEN`): `LEN - start` cannot
underflow and the computed write index is in bounds.  For `clone`:
`LEN - start` cannot underflow and every iterated index is in bounds and
occupied, so `clone_initialized_uninit` only touches initialized slots.
(The remaining subtraction `size - (LEN - start)` is evaluated only under
the branch guards `size ≥ LEN - start` resp. `size > LEN - start`, which
are exactly its no-underflow condition.) -/
theorem C8_safety {α : Type} {LEN : Nat} (q : Inner α LEN) (h : Inv q) :
    (0 < q.size →
      1 ≤ q.size ∧ q.start < LEN ∧ (q.values.getD q.start none).isSome) ∧
    (q.size < LEN → q.start ≤ LEN ∧ q.pushIdx < LEN) ∧
    q.start ≤ LEN ∧
    (∀ i ∈ q.cloneIdxs, i < LEN ∧ (q.values.getD i none).isSome) := by
  obtain ⟨hlen, hstart, hsize, hocc⟩ := h
  refine ⟨?_, ?_, by omega, ?_⟩
  · intro hz
    have hs : q.start < LEN := by omega
    refine ⟨hz, hs, ?_⟩
    rw [hocc q.start hs]
    exact ⟨0, hz, by rw [Nat.add_zero, Nat.mod_eq_of_lt hs]⟩
  · intro hz
    have hs : q.start < LEN := by omega
    refine ⟨by omega, ?_⟩
    rw [Inner.pushIdx_eq q hs hz]
    exact window_idx_lt (by omega)
  · intro i hi
    have ho : occupiedIdx LEN q.start q.size i :=
      (Inner.mem_cloneIdxs ⟨hlen, hstart, hsize, hocc⟩ i).mp hi
    obtain ⟨k, hk, rfl⟩ := ho
    have hLEN : 0 < LEN := by omega
    have hil : (q.start + k) % LEN < LEN := window_idx_lt hLEN
    exact ⟨hil, (hocc _ hil).mpr ⟨k, hk, rfl⟩⟩

/-- Witness for C8 at a state where pop, push and clone are all live. -/
theorem C8_safety_witness :
    Inv wState ∧
      ((0 < wState.size →
        1 ≤ wState.size ∧ wState.start < 2 ∧
          (wState.values.getD wState.start none).isSome) ∧
      (wState.size < 2 → wState.start ≤ 2 ∧ wState.pushIdx < 2) ∧
      wState.start ≤ 2 ∧
      (∀ i ∈ wState.cloneIdxs, i < 2 ∧ (wState.values.getD i none).isSome)) :=
  ⟨by decide, C8_safety wState (by decide)⟩

/-- C9: queue-level `push`/`pop` never produce a "queue full" / "queue
empty" error value: whenever the lock is healthy, every call that
completes returns an `ok` result (capacity contention only blocks, which
the model renders as `none`).  The sole fault class is a poisoned lock,
which `.unwrap()` propagates as a panic — it is neither ignored nor
retried, and no partial result accompanies it. -/
theorem C9_error_handling {α : Type} {LEN : Nat} (v : α)
    (e : QueueFault) (wakes : List (Inner α LEN)) :
    @RingQueue.popModel α LEN (.error e) = some (.error e) ∧
    @RingQueue.pushModel α LEN (.error e) v = some (.error e) ∧
    (∀ r, RingQueue.popModel (.ok wakes) = some r → ∃ out, r = Except.ok out) ∧
    (∀ r, RingQueue.pushModel (.ok wakes) v = some r → ∃ out, r = Except.ok out) := by
  refine ⟨rfl, rfl, ?_, ?_⟩
  · intro r h
    simp only [RingQueue.popModel] at h
    rw [Option.map_eq_some'] at h
    obtain ⟨s, _, hr⟩ := h
    exact ⟨s.pop, hr.symm⟩
  · intro r h
    simp only [RingQueue.pushModel] at h
    rw [Option.map_eq_some'] at h
    obtain ⟨s, _, hr⟩ := h
    exact ⟨s.push v, hr.symm⟩

/-- Witness for C9: a completed pop on a healthy lock is an `ok` result. -/
theorem C9_error_handling_witness :
    ∃ out, (Except.ok ((Inner.new Nat 1).push 5).pop :
      Except QueueFault (Option Nat × Inner Nat 1)) = Except.ok out :=
  (C9_error_handling 7 QueueFault.lockPoisoned [(Inner.new Nat 1).push 5]).2.2.1
    (Except.ok ((Inner.new Nat 1).push 5).pop) rfl

/-- C10: guarded delegation — the queue-level operations delegate to the
storage only in states where the precondition holds, because `wait_while`
re-checks its predicate after every wake: whenever `pushModel` delegates,
the state it pushes into has `size < LEN` (given that every observed state
respects `size ≤ LEN`), and whenever `popModel` delegates, the state it
pops from has `size > 0`. -/
theorem C10_guarded_delegation {α : Type} {LEN : Nat} (v : α)
    (wakes : List (Inner α LEN)) (hwakes : ∀ q ∈ wakes, q.size ≤ LEN) :
    (∀ qd, waitWhile (fun q => q.size == LEN) wakes = some qd →
      qd.size < LEN ∧ RingQueue.pushModel (.ok wakes) v = some (.ok (qd.push v))) ∧
    (∀ qd, waitWhile (fun q => q.size == 0) wakes = some qd →
      0 < qd.size ∧ RingQueue.popModel (.ok wakes) = some (.ok qd.pop)) := by
  constructor
  · intro qd h
    obtain ⟨hfalse, hmem⟩ := waitWhile_exit _ wakes qd h
    have hne : qd.size ≠ LEN := by simpa using hfalse
    refine ⟨lt_of_le_of_ne (hwakes qd hmem) hne, ?_⟩
    simp [RingQueue.pushModel, h]
  · intro qd h
    obtain ⟨hfalse, _⟩ := waitWhile_exit _ wakes qd h
    have hne : qd.size ≠ 0 := by simpa using hfalse
    refine ⟨Nat.pos_of_ne_zero hne, ?_⟩
    simp [RingQueue.popModel, h]

/-- Witness for C10: with a full state observed first and an empty one
second, push waits past the full state and delegates only at the empty
one; pop delegates at the full one. -/
theorem C10_guarded_delegation_witness :
    ((Inner.new Nat 1).size < 1 ∧
      RingQueue.pushModel
          (.ok [{ values := [some 9], start := 0, size := 1 }, Inner.new Nat 1]) 7 =
        some (.ok ((Inner.new Nat 1).push 7))) ∧
    (0 < ({ values := [some 9], start := 0, size := 1 } : Inner Nat 1).size ∧
      RingQueue.popModel
          (.ok [{ values := [some 9], start := 0, size := 1 }, Inner.new Nat 1]) =
        some (.ok ({ values := [some 9], start := 0, size := 1 } : Inner Nat 1).pop)) :=
  ⟨(C10_guarded_delegation 7
      [{ values := [some 9], start := 0, size := 1 }, Inner.new Nat 1]
      (by decide)).1 (Inner.new Nat 1) rfl,
    (C10_guarded_delegation 7
      [{ values := [some 9], start := 0, size := 1 }, Inner.new Nat 1]
      (by decide)).2 { values := [some 9], start := 0, size := 1 } rfl⟩

end RingQueueModel
